import Mathlib

/-!
# Shallow embedding of `directory-consolidator` (src/main.py)

The program reconciles a target directory tree against source trees by
content-duplicate detection (MD5), name-collision handling and several
independent cleaning sweeps.  This file embeds the data model and the
operations of `src/main.py` and proves properties about them.

Modelling conventions:
* A file path relative to its root directory is a list of components
  (`Path`).  The program resolves distinct root directories for the target
  and each source; the trees are modelled as disjoint association lists
  from relative path to `FileData`, in `os.walk` order.
* `FileData.content = none` models a file that cannot be opened/read
  (`OSError` in `_calculate_hash`); `some bytes` is the readable content.
* The MD5 digest of `_calculate_hash` is modelled abstractly by the byte
  content itself: the design (§4.1 of the spec) relies only on the digest
  being a collision-free identifier of content, so the digest type is the
  content and digest equality is content equality.  Hashing an unreadable
  file yields `none`, matching the `except OSError: return None` path.
* Modification times are naturals; only their ordering is used.
* `shutil.move` preserves the file's content, mtime and permission bits
  (it is `os.rename` or `copy2`), so moves carry the whole `FileData`.
-/

namespace Organizer

/-- A path relative to its root directory: a nonempty list of components. -/
abbrev FilePath' := List String

/-- Per-file data read from the filesystem: byte content (`none` when the
file cannot be opened for reading), modification time, permission bits. -/
structure FileData where
  content : Option (List Nat)
  mtime : Nat
  perms : Nat
deriving DecidableEq, Repr

/-- A directory tree: association list from relative path to file data, in
`os.walk` order.  A real filesystem never lists the same path twice. -/
abbrev Tree := List (FilePath' × FileData)

/-- The whole filesystem state the organizer touches: the target tree `X`
and the source trees `Y1, Y2, ...` (distinct directories). -/
structure OrgState where
  target : Tree
  sources : List Tree
deriving DecidableEq, Repr

/-- Look up a path in a tree (first match, as on a real filesystem where
paths are unique). -/
def treeLookup (t : Tree) (p : FilePath') : Option FileData :=
  match t with
  | [] => none
  | (q, fd) :: rest => if q = p then some fd else treeLookup rest p

/-- Write `fd` at path `p`: replace the existing file or create a new one
(`shutil.move` onto a path, with parent directories created as needed). -/
def treeSet (t : Tree) (p : FilePath') (fd : FileData) : Tree :=
  match t with
  | [] => [(p, fd)]
  | (q, fd') :: rest => if q = p then (p, fd) :: rest else (q, fd') :: treeSet rest p fd

/-- Delete the file at path `p` (`Path.unlink`, or the source side of a
`shutil.move`). -/
def treeRemove (t : Tree) (p : FilePath') : Tree :=
  match t with
  | [] => []
  | (q, fd) :: rest => if q = p then treeRemove rest p else (q, fd) :: treeRemove rest p

/-- Replace the `i`-th element of a list using `f`. -/
def updateAt (f : α → α) : Nat → List α → List α
  | _, [] => []
  | 0, x :: xs => f x :: xs
  | n + 1, x :: xs => x :: updateAt f n xs

/-- Look up a file in the `si`-th source tree. -/
def sourceLookup (srcs : List Tree) (si : Nat) (p : FilePath') : Option FileData :=
  match srcs.get? si with
  | none => none
  | some t => treeLookup t p

/-- Remove a file from the `si`-th source tree. -/
def removeSourceFile (srcs : List Tree) (si : Nat) (p : FilePath') : List Tree :=
  updateAt (fun t => treeRemove t p) si srcs

/-- `FileOrganizer._calculate_hash`: stream the file and return its MD5
digest, or `None` when opening/reading raises `OSError`.  The digest is
modelled by the content itself (collision-free content identifier). -/
def calculate_hash (fd : FileData) : Option (List Nat) :=
  fd.content

/-- The in-memory fingerprint index `x_index`: digest to target path. -/
abbrev Index := List (List Nat × FilePath')

/-- `h in x_index` / `x_index[h]` lookup. -/
def idxLookup (i : Index) (h : List Nat) : Option FilePath' :=
  match i with
  | [] => none
  | (h', p) :: rest => if h' = h then some p else idxLookup rest h

/-- `x_index[h] = p`: Python dict assignment (replace or add). -/
def idxInsert (i : Index) (h : List Nat) (p : FilePath') : Index :=
  match i with
  | [] => [(h, p)]
  | (h', p') :: rest => if h' = h then (h, p) :: rest else (h', p') :: idxInsert rest h p

/-!
## Consolidation (`FileOrganizer.consolidate_and_dedup`, src/main.py:207-309)

The run is modelled in auto-approve mode (`--yes`, or after the `all`
response): `_ask_user` returns `True` for every proposal (see
`ask_user` below), and the spec's claims about consolidation describe the
approved behaviour.  Filesystem operations are modelled as succeeding
(the `except OSError` logging branches are failure paths outside the
claims' scope).
-/

/-- Index construction, lines 219-227: walk the target, hash each file and
keep, per digest, the entry whose *current* stat mtime is smallest; the
comparison stats `x_index[h]`, i.e. reads the tree at the indexed path. -/
def buildIndexStep (tree : Tree) (acc : Index) (p : FilePath') (fd : FileData) : Index :=
  match calculate_hash fd with
  | none => acc
  | some h =>
    match idxLookup acc h with
    | none => idxInsert acc h p
    | some p' =>
      match treeLookup tree p' with
      | none => acc  -- `x_index[h].stat()` cannot fail: indexed paths come from the walk
      | some fd' => if fd.mtime < fd'.mtime then idxInsert acc h p else acc

/-- `x_index` after indexing the target directory (lines 216-227). -/
def buildIndex (tree : Tree) : Index :=
  tree.foldl (fun acc e => buildIndexStep tree acc e.1 e.2) []

/-- The action decided for one source file (spec §3 names; each constructor
carries the data the executor needs). -/
inductive Action where
  /-- Line 242: fingerprint could not be computed, file skipped. -/
  | NOOP : Action
  /-- Lines 251-261: content duplicate, source strictly older. -/
  | RESTORE_OLDER_CONTENT (existing : FilePath') : Action
  /-- Lines 262-268: content duplicate, source same age or newer. -/
  | DELETE_NEWER_DUPLICATE_CONTENT : Action
  /-- Lines 285-297: name collision, source strictly newer. -/
  | OVERWRITE_NEWER (h : List Nat) (dest : FilePath') : Action
  /-- Lines 298-299: name collision, source not newer. -/
  | SKIP_OLDER_DUPLICATE_NAME (dest : FilePath') : Action
  /-- Lines 300-309: no content match, destination free. -/
  | MOVE_UNIQUE (h : List Nat) (dest : FilePath') : Action
deriving DecidableEq, Repr

/-- The decision logic of lines 240-302 for one source file `p` (relative
to its source root) with data `fd`, against the current target tree and
index.  `dest_path = self.target_dir / src_path.relative_to(source_dir)`
re-roots the source's relative path onto the target, so in this model the
destination is the same relative path `p`. -/
def classify (target : Tree) (idx : Index) (p : FilePath') (fd : FileData) : Action :=
  match calculate_hash fd with
  | none => .NOOP
  | some h =>
    -- SCENARIO A, lines 244-268: content duplicate
    match idxLookup idx h with
    | some existing =>
      match treeLookup target existing with
      | none => .NOOP  -- `existing.stat()` cannot fail: index paths stay in the target tree
      | some efd =>
        if fd.mtime < efd.mtime then .RESTORE_OLDER_CONTENT existing
        else .DELETE_NEWER_DUPLICATE_CONTENT
    -- SCENARIO B, lines 270-309: unique content, re-root onto the target
    | none =>
      match treeLookup target p with
      | some dfd =>
        if fd.mtime > dfd.mtime then .OVERWRITE_NEWER h p
        else .SKIP_OLDER_DUPLICATE_NAME p
      | none => .MOVE_UNIQUE h p

/-- The approved filesystem mutation and index update for one action on
source file `(si, p)` with data `fd` (the executor side of each branch). -/
def applyAction (st : OrgState) (idx : Index) (si : Nat) (p : FilePath') (fd : FileData) :
    Action → OrgState × Index
  | .NOOP => (st, idx)
  | .SKIP_OLDER_DUPLICATE_NAME _ => (st, idx)
  | .RESTORE_OLDER_CONTENT existing =>
    -- line 258: shutil.move(src_path, existing); no index update
    (⟨treeSet st.target existing fd, removeSourceFile st.sources si p⟩, idx)
  | .DELETE_NEWER_DUPLICATE_CONTENT =>
    -- line 265: src_path.unlink()
    (⟨st.target, removeSourceFile st.sources si p⟩, idx)
  | .OVERWRITE_NEWER h dest =>
    -- lines 292-294: mkdir -p; shutil.move; x_index[src_hash] = dest_path
    (⟨treeSet st.target dest fd, removeSourceFile st.sources si p⟩, idxInsert idx h dest)
  | .MOVE_UNIQUE h dest =>
    -- lines 304-306: mkdir -p; shutil.move; x_index[src_hash] = dest_path
    (⟨treeSet st.target dest fd, removeSourceFile st.sources si p⟩, idxInsert idx h dest)

/-- One iteration of the walk loop (lines 238-309) on source file `(si, p)`,
also recording the decided action. -/
def consolidateStep (acc : OrgState × Index × List (Nat × FilePath' × Action))
    (item : Nat × FilePath') : OrgState × Index × List (Nat × FilePath' × Action) :=
  let (st, idx, tr) := acc
  match sourceLookup st.sources item.1 item.2 with
  | none => (st, idx, tr)  -- unreachable: each listed file is processed once
  | some fd =>
    let a := classify st.target idx item.2 fd
    let (st', idx') := applyAction st idx item.1 item.2 fd a
    (st', idx', tr ++ [(item.1, item.2, a)])

/-- The files the `for source_dir in self.source_dirs` / `os.walk` loops
yield, tagged with their source tree's position, starting at index `i`. -/
def worklistFrom (i : Nat) : List Tree → List (Nat × FilePath')
  | [] => []
  | t :: ts => t.map (fun f => (i, f.1)) ++ worklistFrom (i + 1) ts

/-- The files `os.walk` yields over the source trees, in processing order.
Each walk snapshot lists these files: consolidation only removes the file
currently being processed and writes into the (disjoint) target tree. -/
def worklist (srcs : List Tree) : List (Nat × FilePath') :=
  worklistFrom 0 srcs

/-- A finished consolidation run: final state, final index, action trace. -/
structure RunResult where
  state : OrgState
  index : Index
  trace : List (Nat × FilePath' × Action)
deriving DecidableEq, Repr

/-- `consolidate_and_dedup` in auto-approve mode: build the target index,
then process every source file in walk order. -/
def consolidate_and_dedup (st : OrgState) : RunResult :=
  let idx := buildIndex st.target
  let r := (worklist st.sources).foldl consolidateStep (st, idx, [])
  ⟨r.1, r.2.1, r.2.2⟩

/-- Whether an action mutates the filesystem (moves, deletes, overwrites),
as opposed to the skip/no-op branches. -/
def Action.isMutation : Action → Bool
  | .NOOP => false
  | .SKIP_OLDER_DUPLICATE_NAME _ => false
  | _ => true

/-- Whether the branch taken for an action prints or logs anything about
the file.  The fingerprint-failure path (line 242) is a bare `continue`
with no `print`/`logger` call; every other branch prints at least one
message (lines 252-259, 263-266, 286-295, 299, 302-307). -/
def Action.emitsOutput : Action → Bool
  | .NOOP => false
  | _ => true

/-!
## Configuration loading (`FileOrganizer._load_config`, src/main.py:46-94)

A config source is modelled as `Option (List String)`: `none` when the
path does not exist, `some lines` when it exists with those lines.  The
only statement in the parsing loop that can raise is `int(val, 8)`
(`ValueError` on a non-octal string), modelled by `parseOctal = none`;
the surrounding `try`/`except Exception` returns the untouched defaults.
-/

/-- Python's whitespace set for `str.strip()`. -/
def pyWhitespace : List Char := [' ', '\t', '\n', '\r', '\x0b', '\x0c']

/-- Python `str.lower()` on an ASCII character. -/
def charLower (c : Char) : Char :=
  if 'A' ≤ c ∧ c ≤ 'Z' then Char.ofNat (c.toNat + 32) else c

/-- Python `s.lower()`. -/
def pyLower (s : String) : String :=
  String.mk (s.toList.map charLower)

/-- Python `s.strip()`: drop leading and trailing whitespace. -/
def pyStrip (s : String) : String :=
  String.mk
    (((s.toList.dropWhile (pyWhitespace.contains ·)).reverse.dropWhile
        (pyWhitespace.contains ·)).reverse)

/-- Python `s.endswith(suffix)`. -/
def pyEndsWith (s suffix : String) : Bool :=
  let sl := s.toList
  let xl := suffix.toList
  decide (sl.drop (sl.length - xl.length) = xl)

/-- Python `s.startswith('#')`. -/
def pyStartsWithHash (s : String) : Bool :=
  match s.toList with
  | [] => false
  | c :: _ => c = '#'

/-- Python `s.split(sep, 1)` for a one-character separator: split at the
first occurrence; `none` when the separator does not occur (so the
`'=' in line` test fails). -/
def splitOnce (c : Char) : List Char → Option (List Char × List Char)
  | [] => none
  | d :: rest =>
    if d = c then some ([], rest)
    else
      match splitOnce c rest with
      | none => none
      | some (k, v) => some (d :: k, v)

/-- Python `s.split(sep)` for a one-character separator. -/
def splitAll (c : Char) : List Char → List (List Char)
  | [] => [[]]
  | d :: rest =>
    let r := splitAll c rest
    if d = c then [] :: r
    else
      match r with
      | [] => [[d]]  -- unreachable: splitAll never returns []
      | x :: xs => (d :: x) :: xs

/-- The settings dictionary. -/
structure Config where
  temp_ext : List String
  bad_chars : List Char
  replace_char : String
  perms : Nat
deriving DecidableEq, Repr

/-- The built-in `defaults` dictionary (lines 51-56). -/
def defaults : Config :=
  { temp_ext := [".tmp", ".bak", ".~", ".swp", ".ds_store", ".old"]
    bad_chars := [':', '*', '?', '"', '<', '>', '|', '$', ' ']
    replace_char := "_"
    perms := 0o644 }

/-- Python `s.strip(chars)`: remove leading and trailing characters drawn
from `cs`. -/
def stripEndChars (cs : List Char) (s : String) : String :=
  String.mk
    (((s.toList.dropWhile (cs.contains ·)).reverse.dropWhile (cs.contains ·)).reverse)

/-- Python `int(val, 8)` on the strings this tool feeds it: optional `0o`
prefix, then octal digits; `none` models the `ValueError` on anything
else. -/
def parseOctal (s : String) : Option Nat :=
  let t := (pyStrip s).toList
  let t :=
    match t with
    | '0' :: 'o' :: rest => rest
    | '0' :: 'O' :: rest => rest
    | other => other
  if t ≠ [] ∧ t.all (fun c => '0' ≤ c ∧ c ≤ '7') then
    some (t.foldl (fun acc c => 8 * acc + (c.toNat - '0'.toNat)) 0)
  else none

/-- One iteration of the line loop (lines 74-90) over the running
`settings`; `none` models an exception escaping to the `except` clause. -/
def parseConfigLine (settings : Config) (rawLine : String) : Option Config :=
  let line := pyStrip rawLine
  if line = "" ∨ pyStartsWithHash line then some settings
  else
    match splitOnce '=' line.toList with
    | none => some settings        -- no '=' in line
    | some (keyCs, valCs) =>
      let key := String.mk keyCs
      let val := stripEndChars ['"', '\''] (pyStrip (String.mk valCs))
      if key = "TMP_FILES" then
        some { settings with
               temp_ext := (splitAll ',' val.toList).map (fun x => pyStrip (String.mk x)) }
      else if key = "TRICKY_LETTERS" then
        let noSpace := val.toList.filter (fun c => c ≠ ' ')
        some { settings with
               bad_chars := if val.toList.contains ' ' then noSpace ++ [' '] else noSpace }
      else if key = "TRICKY_LETTER_SUBSTITUTE" then
        some { settings with replace_char := val }
      else if key = "SUGGESTED_ACCESS" then
        (parseOctal val).map (fun n => { settings with perms := n })
      else some settings

/-- The `try` body: fold the parser over the file's lines starting from a
copy of the defaults; `none` when any line raised. -/
def parseConfigLines (lines : List String) : Option Config :=
  lines.foldlM parseConfigLine defaults

/-- Parse a config file that exists, falling back to the untouched
defaults when the `except Exception` clause fires (lines 92-94). -/
def parseOrDefaults (lines : List String) : Config :=
  (parseConfigLines lines).getD defaults

/-- `_load_config`: the configured path if it exists, else `.clean_files`
in the current directory if that exists, else the defaults. -/
def load_config (configured : Option (List String)) (localConf : Option (List String)) : Config :=
  match configured with
  | some lines => parseOrDefaults lines
  | none =>
    match localConf with
    | some lines => parseOrDefaults lines
    | none => defaults

/-!
## Confirmation gate (`FileOrganizer._ask_user`, src/main.py:96-113)

`inputs` is the stream of strings the user would type; the result is
`(answer, auto_mode after the call, remaining input)`.  `none` models the
`while True` loop running out of input (the real prompt would block).
-/

/-- `_ask_user`: in auto mode, return `True` without prompting; otherwise
prompt repeatedly until `y`/`yes`, `n`/`no` or `a`/`all`, the last of
which sets `self.auto_mode = True` before returning `True`. -/
def ask_user : Bool → List String → Option (Bool × Bool × List String)
  | true, inputs => some (true, true, inputs)
  | false, [] => none
  | false, r :: rest =>
    let response := pyStrip (pyLower r)
    if response = "y" ∨ response = "yes" then some (true, false, rest)
    else if response = "n" ∨ response = "no" then some (false, false, rest)
    else if response = "a" ∨ response = "all" then some (true, true, rest)
    else ask_user false rest

/-- `n` consecutive `_ask_user` calls sharing the input stream and the
`auto_mode` field: the list of answers, the final mode, the leftover
input. -/
def gateSequence : Bool → List String → Nat → Option (List Bool × Bool × List String)
  | auto, inputs, 0 => some ([], auto, inputs)
  | auto, inputs, n + 1 =>
    match ask_user auto inputs with
    | none => none
    | some (ans, auto', rest) =>
      match gateSequence auto' rest n with
      | none => none
      | some (answers, autoF, restF) => some (ans :: answers, autoF, restF)

/-!
## Cleaning sweeps (src/main.py:131-205), in auto-approve mode

Each sweep iterates `for directory in self.all_dirs` where
`self.all_dirs = [self.target_dir] + self.source_dirs` (line 41), and
applies an independent per-file rule.  A file with `content = none`
models one whose `stat` raises `OSError` (caught and skipped in
`remove_empty_and_temp` and `fix_permissions`; `sanitize_filenames`
never stats, so it renames regardless of readability).
-/

/-- `self.all_dirs` (line 41): target first, then the sources. -/
def all_dirs (st : OrgState) : List Tree :=
  st.target :: st.sources

/-- The file's name, `path.name`: the last path component. -/
def fileName (p : FilePath') : String :=
  p.getLastD ""

/-- `remove_empty_and_temp` deletes a file when its size is 0 or its name
ends in a configured temporary extension (lines 143-154, every prompt
approved). -/
def shouldDeleteJunk (cfg : Config) (p : FilePath') (fd : FileData) : Bool :=
  match fd.content with
  | none => false  -- path.stat() raises OSError, caught at line 156: file kept
  | some bytes => bytes.isEmpty || cfg.temp_ext.any (fun ext => pyEndsWith (fileName p) ext)

/-- One directory's pass of `remove_empty_and_temp`. -/
def junkCleanTree (cfg : Config) (t : Tree) : Tree :=
  t.filter (fun e => ! shouldDeleteJunk cfg e.1 e.2)

/-- `remove_empty_and_temp` over `all_dirs` (auto-approve). -/
def remove_empty_and_temp (cfg : Config) (st : OrgState) : OrgState :=
  ⟨junkCleanTree cfg st.target, st.sources.map (junkCleanTree cfg)⟩

/-- Lines 171-173: replace every configured bad character in a filename
by the substitute string, one bad character at a time (Python
`new_name.replace(char, replace_char)` with a one-character pattern). -/
def sanitizeName (cfg : Config) (name : String) : String :=
  String.mk
    (cfg.bad_chars.foldl
      (fun n c => n.flatMap (fun d => if d = c then cfg.replace_char.toList else [d]))
      name.toList)

/-- `old_path.rename(new_path)`: POSIX rename, silently replacing any file
already at the new path; a vanished old path raises (caught at line 184). -/
def renameInTree (t : Tree) (old new : FilePath') : Tree :=
  match treeLookup t old with
  | none => t
  | some fd => treeSet (treeRemove t old) new fd

/-- One directory's pass of `sanitize_filenames` (every prompt approved):
each walked file whose name changes under `sanitizeName` is renamed in
place. -/
def sanitizeTree (cfg : Config) (t : Tree) : Tree :=
  t.foldl
    (fun acc e =>
      let nm := fileName e.1
      let newName := sanitizeName cfg nm
      if newName ≠ nm then renameInTree acc e.1 (e.1.dropLast ++ [newName]) else acc)
    t

/-- `sanitize_filenames` over `all_dirs` (auto-approve). -/
def sanitize_filenames (cfg : Config) (st : OrgState) : OrgState :=
  ⟨sanitizeTree cfg st.target, st.sources.map (sanitizeTree cfg)⟩

/-- One directory's pass of `fix_permissions` (lines 194-205, every prompt
approved): chmod every readable file whose mode differs from the
configured one. -/
def fixPermsTree (cfg : Config) (t : Tree) : Tree :=
  t.map (fun e =>
    match e.2.content with
    | none => e  -- path.stat() raises OSError: except clause passes (line 204)
    | some _ => if e.2.perms ≠ cfg.perms then (e.1, { e.2 with perms := cfg.perms }) else e)

/-- `fix_permissions` over `all_dirs` (auto-approve). -/
def fix_permissions (cfg : Config) (st : OrgState) : OrgState :=
  ⟨fixPermsTree cfg st.target, st.sources.map (fixPermsTree cfg)⟩

/-!
## Basic lemmas about the tree, source-list and index operations
-/

theorem treeLookup_treeSet_self (t : Tree) (p : FilePath') (fd : FileData) :
    treeLookup (treeSet t p fd) p = some fd := by
  induction t with
  | nil => simp [treeSet, treeLookup]
  | cons e rest ih =>
    obtain ⟨q, fd'⟩ := e
    by_cases h : q = p
    · simp [treeSet, h, treeLookup]
    · simp [treeSet, h, treeLookup, ih]

theorem treeLookup_treeSet_ne (t : Tree) (p q : FilePath') (fd : FileData) (h : q ≠ p) :
    treeLookup (treeSet t p fd) q = treeLookup t q := by
  have hpq : ¬ p = q := fun hh => h hh.symm
  induction t with
  | nil => simp [treeSet, treeLookup, hpq]
  | cons e rest ih =>
    obtain ⟨q', fd'⟩ := e
    by_cases h' : q' = p
    · subst h'
      simp [treeSet, treeLookup, hpq]
    · simp [treeSet, h', treeLookup, ih]

theorem treeLookup_treeSet_isSome (t : Tree) (p q : FilePath') (fd : FileData)
    (h : (treeLookup t q).isSome) : (treeLookup (treeSet t p fd) q).isSome := by
  by_cases hq : q = p
  · subst hq; simp [treeLookup_treeSet_self]
  · rwa [treeLookup_treeSet_ne t p q fd hq]

theorem treeLookup_treeRemove_ne (t : Tree) (p q : FilePath') (h : p ≠ q) :
    treeLookup (treeRemove t q) p = treeLookup t p := by
  have hqp : ¬ q = p := fun hh => h hh.symm
  induction t with
  | nil => simp [treeRemove, treeLookup]
  | cons e rest ih =>
    obtain ⟨q', fd'⟩ := e
    by_cases h' : q' = q
    · subst h'
      simp [treeRemove, treeLookup, hqp, ih]
    · by_cases hqp' : q' = p
      · simp [treeRemove, h', treeLookup, hqp', h]
      · simp [treeRemove, h', treeLookup, hqp', ih]

theorem treeLookup_isSome_of_mem {t : Tree} {p : FilePath'} {fd : FileData}
    (h : (p, fd) ∈ t) : (treeLookup t p).isSome := by
  induction t with
  | nil => cases h
  | cons e rest ih =>
    obtain ⟨q, fd'⟩ := e
    rcases List.mem_cons.mp h with h' | h'
    · cases h'
      simp [treeLookup]
    · by_cases hq : q = p
      · simp [treeLookup, hq]
      · simp [treeLookup, hq, ih h']

theorem treeLookup_of_mem_nodup {t : Tree} {p : FilePath'} {fd : FileData}
    (hn : (t.map Prod.fst).Nodup) (h : (p, fd) ∈ t) : treeLookup t p = some fd := by
  induction t with
  | nil => cases h
  | cons e rest ih =>
    obtain ⟨q, fd'⟩ := e
    simp only [List.map_cons, List.nodup_cons] at hn
    rcases List.mem_cons.mp h with h' | h'
    · cases h'
      simp [treeLookup]
    · have hq : q ≠ p := by
        intro hqp
        exact hn.1 (hqp ▸ (List.mem_map.mpr ⟨(p, fd), h', rfl⟩))
      simp [treeLookup, hq, ih hn.2 h']

theorem updateAt_get? {α : Type _} (f : α → α) (l : List α) (i j : Nat) :
    (updateAt f i l).get? j = if i = j then (l.get? j).map f else l.get? j := by
  induction l generalizing i j with
  | nil => simp [updateAt]
  | cons x xs ih =>
    cases i with
    | zero =>
      cases j with
      | zero => simp [updateAt]
      | succ j' => simp [updateAt]
    | succ i' =>
      cases j with
      | zero => simp [updateAt]
      | succ j' =>
        simp only [updateAt, List.get?]
        rw [ih i' j']
        by_cases h : i' = j' <;> simp [h]

theorem sourceLookup_removeSourceFile_ne (srcs : List Tree) (si sj : Nat)
    (p q : FilePath') (h : ¬(sj = si ∧ q = p)) :
    sourceLookup (removeSourceFile srcs sj q) si p = sourceLookup srcs si p := by
  unfold sourceLookup removeSourceFile
  rw [updateAt_get?]
  by_cases hj : sj = si
  · subst hj
    have hq : p ≠ q := fun hpq => h ⟨rfl, hpq.symm⟩
    cases hsrc : srcs.get? sj with
    | none => simp
    | some t => simp [treeLookup_treeRemove_ne t p q hq]
  · simp [hj]

theorem idxLookup_idxInsert_self (i : Index) (h : List Nat) (p : FilePath') :
    idxLookup (idxInsert i h p) h = some p := by
  induction i with
  | nil => simp [idxInsert, idxLookup]
  | cons e rest ih =>
    obtain ⟨h', p'⟩ := e
    by_cases hh : h' = h
    · simp [idxInsert, hh, idxLookup]
    · simp [idxInsert, hh, idxLookup, ih]

theorem idxLookup_idxInsert_ne (i : Index) (h h' : List Nat) (p : FilePath') (hne : h' ≠ h) :
    idxLookup (idxInsert i h p) h' = idxLookup i h' := by
  have hne' : ¬ h = h' := fun hh => hne hh.symm
  induction i with
  | nil => simp [idxInsert, idxLookup, hne']
  | cons e rest ih =>
    obtain ⟨h'', p''⟩ := e
    by_cases hh : h'' = h
    · subst hh
      simp [idxInsert, idxLookup, hne']
    · simp only [idxInsert, hh, if_false]
      by_cases hh2 : h'' = h'
      · simp [idxLookup, hh2]
      · simp [idxLookup, hh2, ih]

theorem mem_idxInsert {e : List Nat × FilePath'} {i : Index} {h : List Nat} {p : FilePath'}
    (hm : e ∈ idxInsert i h p) : e = (h, p) ∨ e ∈ i := by
  induction i with
  | nil => simpa [idxInsert] using hm
  | cons e' rest ih =>
    obtain ⟨h', p'⟩ := e'
    by_cases hh : h' = h
    · simp only [idxInsert, hh, if_true] at hm
      rcases List.mem_cons.mp hm with h1 | h1
      · exact Or.inl h1
      · exact Or.inr (List.mem_cons.mpr (Or.inr h1))
    · simp only [idxInsert, hh, if_false] at hm
      rcases List.mem_cons.mp hm with h1 | h1
      · exact Or.inr (List.mem_cons.mpr (Or.inl h1))
      · rcases ih h1 with h2 | h2
        · exact Or.inl h2
        · exact Or.inr (List.mem_cons.mpr (Or.inr h2))

/-!
## Claims
-/

/-- C1: a source file whose fingerprint is in the target index is a
content duplicate: if strictly older it is moved on top of the indexed
target path, keeping the source's mtime on the survivor
(RESTORE_OLDER_CONTENT); otherwise it is deleted and the target is left
untouched (DELETE_NEWER_DUPLICATE_CONTENT); hence a target file and a
source file with identical content and different modification times end
as exactly one surviving copy carrying the earlier timestamp. -/
theorem C1_content_duplicate_policy :
    (∀ (target : Tree) (idx : Index) (p existing : FilePath') (fd efd : FileData)
        (h : List Nat),
        calculate_hash fd = some h →
        idxLookup idx h = some existing →
        treeLookup target existing = some efd →
        classify target idx p fd =
          (if fd.mtime < efd.mtime then Action.RESTORE_OLDER_CONTENT existing
           else Action.DELETE_NEWER_DUPLICATE_CONTENT)) ∧
    (∀ (st : OrgState) (idx : Index) (si : Nat) (p existing : FilePath') (fd : FileData),
        applyAction st idx si p fd (Action.RESTORE_OLDER_CONTENT existing) =
          (⟨treeSet st.target existing fd, removeSourceFile st.sources si p⟩, idx) ∧
        applyAction st idx si p fd Action.DELETE_NEWER_DUPLICATE_CONTENT =
          (⟨st.target, removeSourceFile st.sources si p⟩, idx)) ∧
    (∀ (pT pS : FilePath') (bs : List Nat) (tT tS permT permS : Nat),
        tS ≠ tT →
        (consolidate_and_dedup
            ⟨[(pT, ⟨some bs, tT, permT⟩)], [[(pS, ⟨some bs, tS, permS⟩)]]⟩).state =
          ⟨[(pT, ⟨some bs, min tS tT, if tS < tT then permS else permT⟩)], [[]]⟩) := by
  refine ⟨?_, ?_, ?_⟩
  · intro target idx p existing fd efd h h1 h2 h3
    simp [classify, h1, h2, h3]
  · intro st idx si p existing fd
    exact ⟨rfl, rfl⟩
  · intro pT pS bs tT tS permT permS hne
    by_cases hlt : tS < tT
    · have hmin : min tS tT = tS := Nat.min_eq_left (Nat.le_of_lt hlt)
      simp [consolidate_and_dedup, buildIndex, buildIndexStep, calculate_hash,
        idxLookup, idxInsert, worklist, worklistFrom, consolidateStep, sourceLookup,
        treeLookup, classify, applyAction, treeSet, removeSourceFile, updateAt,
        treeRemove, hlt, hmin]
    · have hmin : min tS tT = tT := Nat.min_eq_right (Nat.le_of_not_lt hlt)
      simp [consolidate_and_dedup, buildIndex, buildIndexStep, calculate_hash,
        idxLookup, idxInsert, worklist, worklistFrom, consolidateStep, sourceLookup,
        treeLookup, classify, applyAction, treeSet, removeSourceFile, updateAt,
        treeRemove, hlt, hmin]

/-- Witness for C1 at a concrete input: target `t` (content `[9]`, mtime
50), source `s` (same content, mtime 20): the older source survives at
the target path with its earlier timestamp. -/
theorem C1_content_duplicate_policy_witness :
    (20 : Nat) ≠ 50 ∧
    (consolidate_and_dedup
        ⟨[(["t"], ⟨some [9], 50, 420⟩)], [[(["s"], ⟨some [9], 20, 384⟩)]]⟩).state =
      ⟨[(["t"], ⟨some [9], 20, 384⟩)], [[]]⟩ := by
  refine ⟨by decide, ?_⟩
  have h := C1_content_duplicate_policy.2.2 ["t"] ["s"] [9] 50 20 420 384 (by decide)
  simpa using h

/-- C2: a source file whose fingerprint is absent from the index has its
path re-rooted onto the target tree (same relative path); a free
destination gives MOVE_UNIQUE (move + insert fingerprint into the index),
an occupied destination gives OVERWRITE_NEWER (move + point the index
entry for the fingerprint at the destination) when the source is strictly
newer, and SKIP_OLDER_DUPLICATE_NAME (no change to anything) otherwise. -/
theorem C2_name_collision_policy :
    (∀ (target : Tree) (idx : Index) (p : FilePath') (fd : FileData) (h : List Nat),
        calculate_hash fd = some h →
        idxLookup idx h = none →
        (treeLookup target p = none → classify target idx p fd = Action.MOVE_UNIQUE h p) ∧
        (∀ dfd, treeLookup target p = some dfd →
          classify target idx p fd =
            (if fd.mtime > dfd.mtime then Action.OVERWRITE_NEWER h p
             else Action.SKIP_OLDER_DUPLICATE_NAME p))) ∧
    (∀ (st : OrgState) (idx : Index) (si : Nat) (p dest : FilePath') (fd : FileData)
        (h : List Nat),
        applyAction st idx si p fd (Action.MOVE_UNIQUE h dest) =
          (⟨treeSet st.target dest fd, removeSourceFile st.sources si p⟩,
           idxInsert idx h dest) ∧
        applyAction st idx si p fd (Action.OVERWRITE_NEWER h dest) =
          (⟨treeSet st.target dest fd, removeSourceFile st.sources si p⟩,
           idxInsert idx h dest) ∧
        applyAction st idx si p fd (Action.SKIP_OLDER_DUPLICATE_NAME dest) = (st, idx)) := by
  constructor
  · intro target idx p fd h h1 h2
    constructor
    · intro h3
      simp [classify, h1, h2, h3]
    · intro dfd h3
      simp [classify, h1, h2, h3]
  · intro st idx si p dest fd h
    exact ⟨rfl, rfl, rfl⟩

/-- Witness for C2 at concrete inputs: an indexed-elsewhere-free digest
classifies to each of the three branches. -/
theorem C2_name_collision_policy_witness :
    (calculate_hash ⟨some [5], 9, 420⟩ = some [5] ∧
     idxLookup [] [5] = none ∧
     treeLookup [] ["n"] = none ∧
     classify [] [] ["n"] ⟨some [5], 9, 420⟩ = Action.MOVE_UNIQUE [5] ["n"]) ∧
    (treeLookup [(["n"], ⟨some [6], 4, 420⟩)] ["n"] = some ⟨some [6], 4, 420⟩ ∧
     classify [(["n"], ⟨some [6], 4, 420⟩)] [] ["n"] ⟨some [5], 9, 420⟩ =
       Action.OVERWRITE_NEWER [5] ["n"]) := by
  refine ⟨⟨by decide, by decide, by decide, ?_⟩, by decide, ?_⟩
  · exact (C2_name_collision_policy.1 [] [] ["n"] ⟨some [5], 9, 420⟩ [5]
      (by decide) (by decide)).1 (by decide)
  · have h := (C2_name_collision_policy.1 [(["n"], ⟨some [6], 4, 420⟩)] []
      ["n"] ⟨some [5], 9, 420⟩ [5] (by decide) (by decide)).2
      ⟨some [6], 4, 420⟩ (by decide)
    simpa using h

/-- The freshness property claimed for the index: every entry points at a
target path that exists and whose current content still hashes to the
entry's fingerprint. -/
def IndexAccurate (target : Tree) (idx : Index) : Prop :=
  ∀ e ∈ idx, ∃ fd, treeLookup target e.2 = some fd ∧ calculate_hash fd = some e.1

/-- The weaker invariant that does hold: every index entry points at a
path that currently exists in the target tree. -/
def IndexPathsLive (target : Tree) (idx : Index) : Prop :=
  ∀ e ∈ idx, (treeLookup target e.2).isSome

/-- C3 counterexample state: target `f` holds content `[2]` (mtime 10);
source `f` holds content `[1]` (mtime 20).  The run overwrites target `f`
(OVERWRITE_NEWER) and adds an index entry for `[1]`, but the old entry
`([2], f)` is never removed and now refers to content `[1]`. -/
def exC3 : OrgState :=
  ⟨[(["f"], ⟨some [2], 10, 420⟩)], [[(["f"], ⟨some [1], 20, 420⟩)]]⟩

/-- C3 is false as stated: after the approved OVERWRITE_NEWER mutation on
`exC3`, the index still contains the entry `([2], ["f"])` although the
file at `["f"]` now has content `[1]` — a stale entry. -/
theorem C3_index_freshness_counterexample :
    ([2], ["f"]) ∈ (consolidate_and_dedup exC3).index ∧
    (consolidate_and_dedup exC3).trace =
      [(0, ["f"], Action.OVERWRITE_NEWER [1] ["f"])] ∧
    ¬ IndexAccurate (consolidate_and_dedup exC3).state.target
        (consolidate_and_dedup exC3).index := by
  refine ⟨by decide, by decide, ?_⟩
  intro hacc
  obtain ⟨fd, hl, hh⟩ := hacc ([2], ["f"]) (by decide)
  have hfd : treeLookup (consolidate_and_dedup exC3).state.target ["f"] =
      some ⟨some [1], 20, 420⟩ := by decide
  rw [hfd] at hl
  injection hl with hl'
  rw [← hl'] at hh
  exact absurd hh (by decide)

theorem buildIndexStep_paths_live (t : Tree) (acc : Index) (p : FilePath') (fd : FileData)
    (hp : (treeLookup t p).isSome) (hacc : IndexPathsLive t acc) :
    IndexPathsLive t (buildIndexStep t acc p fd) := by
  intro e he
  unfold buildIndexStep at he
  cases hch : calculate_hash fd with
  | none => simp only [hch] at he; exact hacc e he
  | some h =>
    simp only [hch] at he
    cases hl : idxLookup acc h with
    | none =>
      simp only [hl] at he
      rcases mem_idxInsert he with he' | he'
      · rw [he']; exact hp
      · exact hacc e he'
    | some p' =>
      simp only [hl] at he
      cases htl : treeLookup t p' with
      | none => simp only [htl] at he; exact hacc e he
      | some fd' =>
        simp only [htl] at he
        by_cases hm : fd.mtime < fd'.mtime
        · rw [if_pos hm] at he
          rcases mem_idxInsert he with he' | he'
          · rw [he']; exact hp
          · exact hacc e he'
        · rw [if_neg hm] at he; exact hacc e he

/-- Every entry of the freshly built index refers to an existing target
path. -/
theorem buildIndex_paths_live (t : Tree) : IndexPathsLive t (buildIndex t) := by
  suffices h : ∀ (l : Tree) (acc : Index), (∀ e ∈ l, e ∈ t) → IndexPathsLive t acc →
      IndexPathsLive t (l.foldl (fun a e => buildIndexStep t a e.1 e.2) acc) by
    exact h t [] (fun e he => he) (fun e he => absurd he (List.not_mem_nil e))
  intro l
  induction l with
  | nil => intro acc _ hacc; exact hacc
  | cons x xs ih =>
    intro acc hsub hacc
    apply ih _ (fun e he => hsub e (List.mem_cons_of_mem x he))
    have hx : (x.1, x.2) ∈ t := by
      have := hsub x (List.mem_cons_self x xs)
      simpa using this
    exact buildIndexStep_paths_live t acc x.1 x.2 (treeLookup_isSome_of_mem hx) hacc

theorem applyAction_paths_live (st : OrgState) (idx : Index) (si : Nat) (p : FilePath')
    (fd : FileData) (a : Action) (hacc : IndexPathsLive st.target idx) :
    IndexPathsLive (applyAction st idx si p fd a).1.target (applyAction st idx si p fd a).2 := by
  cases a with
  | NOOP => exact hacc
  | SKIP_OLDER_DUPLICATE_NAME dest => exact hacc
  | DELETE_NEWER_DUPLICATE_CONTENT => exact hacc
  | RESTORE_OLDER_CONTENT existing =>
    intro e he
    exact treeLookup_treeSet_isSome st.target existing e.2 fd (hacc e he)
  | OVERWRITE_NEWER h dest =>
    intro e he
    rcases mem_idxInsert he with he' | he'
    · rw [he']
      show (treeLookup (treeSet st.target dest fd) dest).isSome = true
      rw [treeLookup_treeSet_self]
      rfl
    · exact treeLookup_treeSet_isSome st.target dest e.2 fd (hacc e he')
  | MOVE_UNIQUE h dest =>
    intro e he
    rcases mem_idxInsert he with he' | he'
    · rw [he']
      show (treeLookup (treeSet st.target dest fd) dest).isSome = true
      rw [treeLookup_treeSet_self]
      rfl
    · exact treeLookup_treeSet_isSome st.target dest e.2 fd (hacc e he')

theorem consolidateStep_paths_live (acc : OrgState × Index × List (Nat × FilePath' × Action))
    (item : Nat × FilePath') (h : IndexPathsLive acc.1.target acc.2.1) :
    IndexPathsLive (consolidateStep acc item).1.target (consolidateStep acc item).2.1 := by
  obtain ⟨st, idx, tr⟩ := acc
  unfold consolidateStep
  cases hsl : sourceLookup st.sources item.1 item.2 with
  | none => simp only [hsl]; exact h
  | some fd =>
    simp only [hsl]
    exact applyAction_paths_live st idx item.1 item.2 fd
      (classify st.target idx item.2 fd) h

/-- C3 amended: at every intermediate point of a consolidation run (after
any prefix of the processed files, i.e. after every approved mutation)
every index entry refers to a path that currently exists in the target
tree.  (The stronger content-accuracy in the claim as stated fails, per
the counterexample: OVERWRITE_NEWER does not remove the overwritten
content's old entry.) -/
theorem C3_index_paths_live_amended :
    ∀ (st : OrgState) (pre rest : List (Nat × FilePath')),
      worklist st.sources = pre ++ rest →
      IndexPathsLive
        ((pre.foldl consolidateStep (st, buildIndex st.target, [])).1).target
        ((pre.foldl consolidateStep (st, buildIndex st.target, [])).2.1) := by
  intro st pre rest _
  suffices h : ∀ (items : List (Nat × FilePath'))
      (acc : OrgState × Index × List (Nat × FilePath' × Action)),
      IndexPathsLive acc.1.target acc.2.1 →
      IndexPathsLive (items.foldl consolidateStep acc).1.target
        (items.foldl consolidateStep acc).2.1 by
    exact h pre _ (buildIndex_paths_live st.target)
  intro items
  induction items with
  | nil => intro acc hn; exact hn
  | cons x xs ih => intro acc hn; exact ih _ (consolidateStep_paths_live acc x hn)

/-- Witness for the amended C3 on `exC3` itself, with the full worklist as
the prefix. -/
theorem C3_index_paths_live_amended_witness :
    worklist exC3.sources = [(0, ["f"])] ++ [] ∧
    IndexPathsLive
      (([(0, ["f"])].foldl consolidateStep (exC3, buildIndex exC3.target, [])).1).target
      (([(0, ["f"])].foldl consolidateStep (exC3, buildIndex exC3.target, [])).2.1) :=
  ⟨by decide, C3_index_paths_live_amended exC3 [(0, ["f"])] [] (by decide)⟩

/-- C4 counterexample state: target `a` (content `[4]`, mtime 10);
source tree 1 holds `a` (content `[3]`, mtime 5), source tree 2 holds `b`
(content `[3]`, mtime 7).  Run 1 skips `Y1/a` (name collision, source
older) and moves `Y2/b` into the target; run 2 then finds `Y1/a`'s
fingerprint in the index and performs a RESTORE_OLDER_CONTENT move. -/
def exC4 : OrgState :=
  ⟨[(["a"], ⟨some [4], 10, 420⟩)],
   [[(["a"], ⟨some [3], 5, 420⟩)], [(["b"], ⟨some [3], 7, 420⟩)]]⟩

/-- C4 is false as stated: on `exC4` the second auto-approve run performs
a filesystem mutation (a RESTORE_OLDER_CONTENT move) and changes the
target tree. -/
theorem C4_idempotence_counterexample :
    ((consolidate_and_dedup (consolidate_and_dedup exC4).state).trace.map
        (fun e => e.2.2)) = [Action.RESTORE_OLDER_CONTENT ["b"]] ∧
    (Action.RESTORE_OLDER_CONTENT ["b"]).isMutation = true ∧
    (consolidate_and_dedup (consolidate_and_dedup exC4).state).state.target ≠
      (consolidate_and_dedup exC4).state.target := by
  decide

theorem worklistFrom_eq_nil (l : List Tree) (h : ∀ t ∈ l, t = []) (i : Nat) :
    worklistFrom i l = [] := by
  induction l generalizing i with
  | nil => rfl
  | cons t ts ih =>
    have ht : t = [] := h t (List.mem_cons_self t ts)
    simp [worklistFrom, ht, ih (fun u hu => h u (List.mem_cons_of_mem t hu))]

/-- A consolidation run over empty source trees leaves the state exactly
as it was and performs no actions at all. -/
theorem consolidate_empty_sources (st : OrgState) (h : ∀ t ∈ st.sources, t = []) :
    consolidate_and_dedup st = ⟨st, buildIndex st.target, []⟩ := by
  unfold consolidate_and_dedup
  rw [show worklist st.sources = [] from worklistFrom_eq_nil st.sources h 0]
  rfl

/-- C4 amended: consolidation is idempotent in auto-approve mode provided
the first run empties the source trees (no skipped and no unfingerprintable
source files remain): the second run then mutates nothing, traces no
actions, and leaves the whole state identical.  (Unconditional idempotence
is false, per the counterexample: a file skipped in run 1 can be acted on
in run 2 once a same-content file has been moved into the target.) -/
theorem C4_idempotence_amended :
    ∀ st : OrgState,
      (∀ t ∈ (consolidate_and_dedup st).state.sources, t = []) →
      (consolidate_and_dedup ((consolidate_and_dedup st).state)).state =
          (consolidate_and_dedup st).state ∧
      (consolidate_and_dedup ((consolidate_and_dedup st).state)).trace = [] := by
  intro st h
  rw [consolidate_empty_sources ((consolidate_and_dedup st).state) h]
  exact ⟨rfl, rfl⟩

/-- C4 amended example state: one unique source file, moved by run 1. -/
def exC4w : OrgState :=
  ⟨[], [[(["s"], ⟨some [1], 5, 420⟩)]]⟩

/-- Witness for the amended C4: run 1 on `exC4w` empties the source tree,
and run 2 changes nothing and performs no actions. -/
theorem C4_idempotence_amended_witness :
    (∀ t ∈ (consolidate_and_dedup exC4w).state.sources, t = []) ∧
    ((consolidate_and_dedup ((consolidate_and_dedup exC4w).state)).state =
        (consolidate_and_dedup exC4w).state ∧
     (consolidate_and_dedup ((consolidate_and_dedup exC4w).state)).trace = []) :=
  ⟨by decide, C4_idempotence_amended exC4w (by decide)⟩

/-- C5 counterexample state: one unreadable source file. -/
def exC5 : OrgState :=
  ⟨[], [[(["u"], ⟨none, 5, 420⟩)]]⟩

/-- C5 is false as stated on its diagnostic clause: processing the
unreadable file `u` records only the silent skip (line 242 is a bare
`continue`), so the run emits no message at all for it — there is no
logged diagnostic.  The file itself is untouched. -/
theorem C5_unreadable_diagnostic_counterexample :
    (consolidate_and_dedup exC5).trace = [(0, ["u"], Action.NOOP)] ∧
    ((consolidate_and_dedup exC5).trace.filter (fun e => e.2.2.emitsOutput)) = [] ∧
    (consolidate_and_dedup exC5).state = exC5 := by
  decide

theorem applyAction_sources (st : OrgState) (idx : Index) (si : Nat) (p : FilePath')
    (fd : FileData) (a : Action) :
    (applyAction st idx si p fd a).1.sources = st.sources ∨
    (applyAction st idx si p fd a).1.sources = removeSourceFile st.sources si p := by
  cases a <;> simp [applyAction]

theorem consolidateStep_unreadable_frame :
    ∀ (items : List (Nat × FilePath'))
      (acc : OrgState × Index × List (Nat × FilePath' × Action))
      (si : Nat) (p : FilePath') (fd : FileData),
      sourceLookup acc.1.sources si p = some fd →
      fd.content = none →
      (∀ e ∈ acc.2.2, e.1 = si ∧ e.2.1 = p → e.2.2 = Action.NOOP) →
      sourceLookup ((items.foldl consolidateStep acc).1).sources si p = some fd ∧
      (∀ e ∈ (items.foldl consolidateStep acc).2.2,
        e.1 = si ∧ e.2.1 = p → e.2.2 = Action.NOOP) := by
  intro items
  induction items with
  | nil => intro acc si p fd h1 _ h3; exact ⟨h1, h3⟩
  | cons x xs ih =>
    intro acc si p fd h1 h2 h3
    obtain ⟨st, idx, tr⟩ := acc
    rw [List.foldl_cons]
    rcases hsl : sourceLookup st.sources x.1 x.2 with _ | gd
    · have hstep : consolidateStep (st, idx, tr) x = (st, idx, tr) := by
        simp only [consolidateStep, hsl]
      rw [hstep]
      exact ih (st, idx, tr) si p fd h1 h2 h3
    · by_cases hx : x.1 = si ∧ x.2 = p
      · -- the unreadable file itself is being processed: hash fails, NOOP
        obtain ⟨hxs, hxp⟩ := hx
        subst hxs; subst hxp
        have hgd : gd = fd := by
          rw [h1] at hsl
          exact (Option.some_inj.mp hsl).symm
        subst hgd
        have hcl : classify st.target idx x.2 gd = Action.NOOP := by
          unfold classify
          rw [show calculate_hash gd = none from h2]
        have hstep : consolidateStep (st, idx, tr) x =
            (st, idx, tr ++ [(x.1, x.2, Action.NOOP)]) := by
          simp only [consolidateStep, hsl, hcl, applyAction]
        rw [hstep]
        refine ih _ _ _ _ h1 h2 ?_
        intro e he hep
        rcases List.mem_append.mp he with he' | he'
        · exact h3 e he' hep
        · simp only [List.mem_singleton] at he'
          rw [he']
        -- a different file is processed: its action cannot touch (si, p)
      · have hstep : consolidateStep (st, idx, tr) x =
            ((applyAction st idx x.1 x.2 gd (classify st.target idx x.2 gd)).1,
             (applyAction st idx x.1 x.2 gd (classify st.target idx x.2 gd)).2,
             tr ++ [(x.1, x.2, classify st.target idx x.2 gd)]) := by
          simp only [consolidateStep, hsl]
        rw [hstep]
        refine ih _ si p fd ?_ h2 ?_
        · rcases applyAction_sources st idx x.1 x.2 gd
            (classify st.target idx x.2 gd) with hs | hs
          · rw [hs]; exact h1
          · rw [hs]
            rw [sourceLookup_removeSourceFile_ne st.sources si x.1 p x.2 hx]
            exact h1
        · intro e he hep
          rcases List.mem_append.mp he with he' | he'
          · exact h3 e he' hep
          · simp only [List.mem_singleton] at he'
            rw [he'] at hep
            exact absurd ⟨hep.1, hep.2⟩ hx

/-- C5 amended: every source file whose fingerprint could not be computed
is skipped *silently* (the only recorded action for it is a NOOP,
emitting no output — the code logs no diagnostic) and is never deleted,
moved or otherwise mutated by the consolidation sweep; the run continues
with the remaining files. -/
theorem C5_unreadable_never_mutated_amended :
    ∀ (st : OrgState) (si : Nat) (p : FilePath') (fd : FileData),
      sourceLookup st.sources si p = some fd →
      fd.content = none →
      sourceLookup (consolidate_and_dedup st).state.sources si p = some fd ∧
      ∀ e ∈ (consolidate_and_dedup st).trace,
        e.1 = si ∧ e.2.1 = p →
          e.2.2 = Action.NOOP ∧ Action.emitsOutput e.2.2 = false := by
  intro st si p fd h1 h2
  have h := consolidateStep_unreadable_frame (worklist st.sources)
    (st, buildIndex st.target, []) si p fd h1 h2 (by intro e he; cases he)
  refine ⟨h.1, fun e he hep => ?_⟩
  have hn := h.2 e he hep
  exact ⟨hn, by simp [hn, Action.emitsOutput]⟩

/-- Witness for the amended C5 on a run with an unreadable file alongside
a readable one. -/
theorem C5_unreadable_never_mutated_amended_witness :
    sourceLookup [[(["u"], ⟨none, 5, 420⟩), (["v"], ⟨some [1], 6, 420⟩)]] 0 ["u"] =
      some ⟨none, 5, 420⟩ ∧
    (sourceLookup (consolidate_and_dedup
        ⟨[], [[(["u"], ⟨none, 5, 420⟩), (["v"], ⟨some [1], 6, 420⟩)]]⟩).state.sources
        0 ["u"] = some ⟨none, 5, 420⟩ ∧
     ∀ e ∈ (consolidate_and_dedup
        ⟨[], [[(["u"], ⟨none, 5, 420⟩), (["v"], ⟨some [1], 6, 420⟩)]]⟩).trace,
        e.1 = 0 ∧ e.2.1 = ["u"] →
          e.2.2 = Action.NOOP ∧ Action.emitsOutput e.2.2 = false) :=
  ⟨by decide,
   C5_unreadable_never_mutated_amended
     ⟨[], [[(["u"], ⟨none, 5, 420⟩), (["v"], ⟨some [1], 6, 420⟩)]]⟩
     0 ["u"] ⟨none, 5, 420⟩ (by decide) (by decide)⟩

/-- Invariant of the index-construction loop after the files `done` have
been walked: keys are unique, every entry is a walked file with that
digest whose mtime is minimal among walked files with that digest, and
every walked digest has an entry. -/
def IndexInv (done : Tree) (acc : Index) : Prop :=
  ((acc.map Prod.fst).Nodup) ∧
  (∀ h q, idxLookup acc h = some q →
      ∃ fd, (q, fd) ∈ done ∧ calculate_hash fd = some h ∧
        ∀ r gd, (r, gd) ∈ done → calculate_hash gd = some h → fd.mtime ≤ gd.mtime) ∧
  (∀ r gd, (r, gd) ∈ done → ∀ h, calculate_hash gd = some h → (idxLookup acc h).isSome)

theorem keys_idxInsert_nodup {i : Index} (h : List Nat) (p : FilePath')
    (hn : (i.map Prod.fst).Nodup) : ((idxInsert i h p).map Prod.fst).Nodup := by
  induction i with
  | nil => simp [idxInsert]
  | cons e rest ih =>
    obtain ⟨h', p'⟩ := e
    simp only [List.map_cons, List.nodup_cons] at hn
    by_cases hh : h' = h
    · subst hh
      have hins : idxInsert ((h', p') :: rest) h' p = (h', p) :: rest := by
        simp [idxInsert]
      rw [hins]
      simp only [List.map_cons, List.nodup_cons]
      exact ⟨hn.1, hn.2⟩
    · simp only [idxInsert, if_neg hh, List.map_cons, List.nodup_cons]
      refine ⟨?_, ih hn.2⟩
      intro hmem
      rcases List.mem_map.mp hmem with ⟨e', he', hfst⟩
      rcases mem_idxInsert he' with h1 | h1
      · rw [h1] at hfst
        exact hh hfst.symm
      · exact hn.1 (List.mem_map.mpr ⟨e', h1, hfst⟩)

theorem buildIndexStep_inv (whole : Tree) (hn : (whole.map Prod.fst).Nodup)
    (done rest : Tree) (p : FilePath') (fd : FileData)
    (hsplit : whole = done ++ (p, fd) :: rest)
    (acc : Index) (hinv : IndexInv done acc) :
    IndexInv (done ++ [(p, fd)]) (buildIndexStep whole acc p fd) := by
  obtain ⟨hK, hM, hP⟩ := hinv
  have hmem_new : (p, fd) ∈ done ++ [(p, fd)] :=
    List.mem_append.mpr (Or.inr (List.mem_singleton.mpr rfl))
  cases hch : calculate_hash fd with
  | none =>
    simp only [buildIndexStep, hch]
    refine ⟨hK, ?_, ?_⟩
    · intro h q hl
      obtain ⟨fd', hmem, hh, hmin⟩ := hM h q hl
      refine ⟨fd', List.mem_append.mpr (Or.inl hmem), hh, ?_⟩
      intro r gd hrg hhg
      rcases List.mem_append.mp hrg with he' | he'
      · exact hmin r gd he' hhg
      · have heq := List.mem_singleton.mp he'
        injection heq with h1 h2
        subst h1; subst h2
        rw [hch] at hhg
        cases hhg
    · intro r gd hrg h hhg
      rcases List.mem_append.mp hrg with he' | he'
      · exact hP r gd he' h hhg
      · have heq := List.mem_singleton.mp he'
        injection heq with h1 h2
        subst h1; subst h2
        rw [hch] at hhg
        cases hhg
  | some h =>
    simp only [buildIndexStep, hch]
    cases hl : idxLookup acc h with
    | none =>
      -- first file of this digest: insert it
      simp only
      refine ⟨keys_idxInsert_nodup h p hK, ?_, ?_⟩
      · intro h' q hl'
        by_cases hh : h' = h
        · subst hh
          rw [idxLookup_idxInsert_self] at hl'
          injection hl' with hq
          subst hq
          refine ⟨fd, hmem_new, hch, ?_⟩
          intro r gd hrg hhg
          rcases List.mem_append.mp hrg with he' | he'
          · have := hP r gd he' h' hhg
            rw [hl] at this
            cases this
          · have heq := List.mem_singleton.mp he'
            injection heq with h1 h2
            subst h1; subst h2
            exact Nat.le_refl _
        · rw [idxLookup_idxInsert_ne acc h h' p hh] at hl'
          obtain ⟨fd', hmem, hh', hmin⟩ := hM h' q hl'
          refine ⟨fd', List.mem_append.mpr (Or.inl hmem), hh', ?_⟩
          intro r gd hrg hhg
          rcases List.mem_append.mp hrg with he' | he'
          · exact hmin r gd he' hhg
          · have heq := List.mem_singleton.mp he'
            injection heq with h1 h2
            subst h1; subst h2
            rw [hch] at hhg
            injection hhg with hhh
            exact absurd hhh.symm hh
      · intro r gd hrg h' hhg
        rcases List.mem_append.mp hrg with he' | he'
        · have := hP r gd he' h' hhg
          by_cases hh : h' = h
          · subst hh
            rw [idxLookup_idxInsert_self]
            rfl
          · rw [idxLookup_idxInsert_ne acc h h' p hh]
            exact this
        · have heq := List.mem_singleton.mp he'
          injection heq with h1 h2
          subst h1; subst h2
          rw [hch] at hhg
          injection hhg with hhh
          subst hhh
          rw [idxLookup_idxInsert_self]
          rfl
    | some q0 =>
      -- a file of this digest was already indexed: stat it and compare
      obtain ⟨fd0, hmem0, hh0, hmin0⟩ := hM h q0 hl
      have htl : treeLookup whole q0 = some fd0 := by
        apply treeLookup_of_mem_nodup hn
        rw [hsplit]
        exact List.mem_append.mpr (Or.inl hmem0)
      show IndexInv (done ++ [(p, fd)])
        (match treeLookup whole q0 with
         | none => acc
         | some fd' => if fd.mtime < fd'.mtime then idxInsert acc h p else acc)
      rw [htl]
      show IndexInv (done ++ [(p, fd)])
        (if fd.mtime < fd0.mtime then idxInsert acc h p else acc)
      by_cases hm : fd.mtime < fd0.mtime
      · rw [if_pos hm]
        refine ⟨keys_idxInsert_nodup h p hK, ?_, ?_⟩
        · intro h' q hl'
          by_cases hh : h' = h
          · subst hh
            rw [idxLookup_idxInsert_self] at hl'
            injection hl' with hq
            subst hq
            refine ⟨fd, hmem_new, hch, ?_⟩
            intro r gd hrg hhg
            rcases List.mem_append.mp hrg with he' | he'
            · exact Nat.le_trans (Nat.le_of_lt hm) (hmin0 r gd he' hhg)
            · have heq := List.mem_singleton.mp he'
              injection heq with h1 h2
              subst h1; subst h2
              exact Nat.le_refl _
          · rw [idxLookup_idxInsert_ne acc h h' p hh] at hl'
            obtain ⟨fd', hmem, hh', hmin⟩ := hM h' q hl'
            refine ⟨fd', List.mem_append.mpr (Or.inl hmem), hh', ?_⟩
            intro r gd hrg hhg
            rcases List.mem_append.mp hrg with he' | he'
            · exact hmin r gd he' hhg
            · have heq := List.mem_singleton.mp he'
              injection heq with h1 h2
              subst h1; subst h2
              rw [hch] at hhg
              injection hhg with hhh
              exact absurd hhh.symm hh
        · intro r gd hrg h' hhg
          rcases List.mem_append.mp hrg with he' | he'
          · have := hP r gd he' h' hhg
            by_cases hh : h' = h
            · subst hh
              rw [idxLookup_idxInsert_self]
              rfl
            · rw [idxLookup_idxInsert_ne acc h h' p hh]
              exact this
          · have heq := List.mem_singleton.mp he'
            injection heq with h1 h2
            subst h1; subst h2
            rw [hch] at hhg
            injection hhg with hhh
            subst hhh
            rw [idxLookup_idxInsert_self]
            rfl
      · rw [if_neg hm]
        refine ⟨hK, ?_, ?_⟩
        · intro h' q hl'
          by_cases hh : h' = h
          · -- the existing entry stays and is still minimal: the new file
            -- is not strictly older
            subst hh
            have hq0 : q = q0 := by
              rw [hl] at hl'
              exact (Option.some_inj.mp hl').symm
            subst hq0
            refine ⟨fd0, List.mem_append.mpr (Or.inl hmem0), hh0, ?_⟩
            intro r gd hrg hhg
            rcases List.mem_append.mp hrg with he' | he'
            · exact hmin0 r gd he' hhg
            · have heq := List.mem_singleton.mp he'
              injection heq with h1 h2
              subst h1; subst h2
              exact Nat.le_of_not_lt hm
          · obtain ⟨fd', hmem, hh', hmin⟩ := hM h' q hl'
            refine ⟨fd', List.mem_append.mpr (Or.inl hmem), hh', ?_⟩
            intro r gd hrg hhg
            rcases List.mem_append.mp hrg with he' | he'
            · exact hmin r gd he' hhg
            · have heq := List.mem_singleton.mp he'
              injection heq with h1 h2
              subst h1; subst h2
              rw [hch] at hhg
              injection hhg with hhh
              exact absurd hhh.symm hh
        · intro r gd hrg h' hhg
          rcases List.mem_append.mp hrg with he' | he'
          · exact hP r gd he' h' hhg
          · have heq := List.mem_singleton.mp he'
            injection heq with h1 h2
            subst h1; subst h2
            rw [hch] at hhg
            injection hhg with hhh
            subst hhh
            rw [hl]
            rfl

theorem buildIndexFold_inv (whole : Tree) (hn : (whole.map Prod.fst).Nodup) :
    ∀ (l done : Tree) (acc : Index),
      whole = done ++ l → IndexInv done acc →
      IndexInv whole (l.foldl (fun a e => buildIndexStep whole a e.1 e.2) acc) := by
  intro l
  induction l with
  | nil =>
    intro done acc hsplit hinv
    rw [List.append_nil] at hsplit
    subst hsplit
    exact hinv
  | cons x xs ih =>
    intro done acc hsplit hinv
    obtain ⟨p, fd⟩ := x
    rw [List.foldl_cons]
    exact ih (done ++ [(p, fd)]) _
      (by rw [hsplit]; simp)
      (buildIndexStep_inv whole hn done xs p fd hsplit acc hinv)

/-- C6: when the target tree walk lists each path once, the built index
has at most one entry per fingerprint; each entry is one of the walked
files with that fingerprint whose modification time is minimal among all
walked files with that fingerprint (so with two or more holders the
oldest wins, exact ties broken arbitrarily among minima); and every
fingerprintable walked file has an index entry. -/
theorem C6_index_tiebreak :
    ∀ t : Tree, (t.map Prod.fst).Nodup →
      ((buildIndex t).map Prod.fst).Nodup ∧
      (∀ h q, idxLookup (buildIndex t) h = some q →
        ∃ fd, (q, fd) ∈ t ∧ calculate_hash fd = some h ∧
          ∀ r gd, (r, gd) ∈ t → calculate_hash gd = some h → fd.mtime ≤ gd.mtime) ∧
      (∀ r gd, (r, gd) ∈ t → ∀ h, calculate_hash gd = some h →
        (idxLookup (buildIndex t) h).isSome) := by
  intro t hn
  have hbase : IndexInv [] [] := by
    refine ⟨List.nodup_nil, ?_, ?_⟩
    · intro h q hl
      cases hl
    · intro r gd hrg
      cases hrg
  exact buildIndexFold_inv t hn t [] [] rfl hbase

/-- C6 example tree: three files with one shared digest `[7]` (mtimes 30,
10, 10) and one other digest. -/
def exC6 : Tree :=
  [(["a"], ⟨some [7], 30, 420⟩), (["b"], ⟨some [7], 10, 420⟩),
   (["c"], ⟨some [7], 10, 420⟩), (["d"], ⟨some [8], 50, 420⟩)]

/-- Witness for C6 on `exC6`: the hypothesis holds, the theorem applies,
and concretely the tied minimum is resolved to the first-seen file `b`. -/
theorem C6_index_tiebreak_witness :
    (exC6.map Prod.fst).Nodup ∧
    (((buildIndex exC6).map Prod.fst).Nodup ∧
     (∀ h q, idxLookup (buildIndex exC6) h = some q →
       ∃ fd, (q, fd) ∈ exC6 ∧ calculate_hash fd = some h ∧
         ∀ r gd, (r, gd) ∈ exC6 → calculate_hash gd = some h → fd.mtime ≤ gd.mtime) ∧
     (∀ r gd, (r, gd) ∈ exC6 → ∀ h, calculate_hash gd = some h →
       (idxLookup (buildIndex exC6) h).isSome)) ∧
    idxLookup (buildIndex exC6) [7] = some ["b"] :=
  ⟨by decide, C6_index_tiebreak exC6 (by decide), by decide⟩

/-- C7: configuration loading is total and falls back in order: the
configured path's contents if it exists (the dotfile then ignored), else
the `.clean_files` dotfile, else the built-in defaults; and any parse
error discards the whole file, returning exactly the untouched built-in
defaults (never a partially applied config). -/
theorem C7_config_loading :
    (∀ loc, load_config none (some loc) = parseOrDefaults loc) ∧
    load_config none none = defaults ∧
    (∀ lines loc, load_config (some lines) loc = parseOrDefaults lines) ∧
    (∀ lines, parseConfigLines lines = none → parseOrDefaults lines = defaults) := by
  refine ⟨fun loc => rfl, rfl, fun lines loc => rfl, ?_⟩
  intro lines h
  unfold parseOrDefaults
  rw [h]
  rfl

/-- Witness for C7: the malformed octal `SUGGESTED_ACCESS=xyz` raises,
and the whole file is discarded in favour of the defaults. -/
theorem C7_config_loading_witness :
    parseConfigLines ["TMP_FILES=.x,.y", "SUGGESTED_ACCESS=xyz"] = none ∧
    parseOrDefaults ["TMP_FILES=.x,.y", "SUGGESTED_ACCESS=xyz"] = defaults :=
  ⟨by decide,
   C7_config_loading.2.2.2 ["TMP_FILES=.x,.y", "SUGGESTED_ACCESS=xyz"] (by decide)⟩

/-- C8: the confirmation gate's `all` response switches it to auto mode,
and the auto mode is absorbing: every later proposal is approved with
`True` without consuming any input, for the whole remainder of the run. -/
theorem C8_confirmation_gate :
    (∀ rest, ask_user false ("all" :: rest) = some (true, true, rest)) ∧
    (∀ inputs, ask_user true inputs = some (true, true, inputs)) ∧
    (∀ n inputs, gateSequence true inputs n = some (List.replicate n true, true, inputs)) := by
  refine ⟨fun rest => rfl, fun inputs => by cases inputs <;> rfl, ?_⟩
  intro n
  induction n with
  | zero => intro inputs; rfl
  | succ n ih =>
    intro inputs
    simp only [gateSequence, ask_user, ih, List.replicate]

/-- C9 example state: the target holds a temp-extension file, a source
tree holds an empty file, a bad-character name with loose permissions,
and a clean file. -/
def exC9 : OrgState :=
  ⟨[(["t.tmp"], ⟨some [1], 5, 420⟩)],
   [[(["e"], ⟨some [], 6, 420⟩),
     (["a:b c.txt"], ⟨some [2], 7, 511⟩),
     (["keep.txt"], ⟨some [3], 8, 420⟩)]]⟩

/-- C9: every cleaning sweep walks `all_dirs = [target] + sources`, so it
mutates files inside source trees as well as the target: on `exC9` the
junk sweep deletes the source's empty file (and the target's temp file),
the sanitize sweep renames the source's bad-character file, and the
permission sweep chmods the source file; only consolidation treats the
target asymmetrically — it deletes the duplicate on the source side and
leaves the target copy. -/
theorem C9_sweeps_walk_all_dirs :
    (∀ st : OrgState, all_dirs st = st.target :: st.sources) ∧
    remove_empty_and_temp defaults exC9 =
      ⟨[], [[(["a:b c.txt"], ⟨some [2], 7, 511⟩), (["keep.txt"], ⟨some [3], 8, 420⟩)]]⟩ ∧
    sanitize_filenames defaults exC9 =
      ⟨[(["t.tmp"], ⟨some [1], 5, 420⟩)],
       [[(["e"], ⟨some [], 6, 420⟩), (["keep.txt"], ⟨some [3], 8, 420⟩),
         (["a_b_c.txt"], ⟨some [2], 7, 511⟩)]]⟩ ∧
    fix_permissions defaults exC9 =
      ⟨[(["t.tmp"], ⟨some [1], 5, 420⟩)],
       [[(["e"], ⟨some [], 6, 420⟩), (["a:b c.txt"], ⟨some [2], 7, 420⟩),
         (["keep.txt"], ⟨some [3], 8, 420⟩)]]⟩ ∧
    (consolidate_and_dedup ⟨[(["x"], ⟨some [9], 5, 420⟩)], [[(["y"], ⟨some [9], 8, 420⟩)]]⟩).state =
      ⟨[(["x"], ⟨some [9], 5, 420⟩)], [[]]⟩ := by
  refine ⟨fun st => rfl, ?_, ?_, ?_, ?_⟩ <;> decide

/-- Classification of a source file whose fingerprint is in the index:
the content-duplicate branch of lines 244-268. -/
theorem classify_of_indexed (target : Tree) (idx : Index) (p : FilePath') (fd : FileData)
    (h : List Nat) (existing : FilePath')
    (h1 : calculate_hash fd = some h) (h2 : idxLookup idx h = some existing) :
    classify target idx p fd =
      match treeLookup target existing with
      | none => Action.NOOP
      | some efd =>
        if fd.mtime < efd.mtime then Action.RESTORE_OLDER_CONTENT existing
        else Action.DELETE_NEWER_DUPLICATE_CONTENT := by
  simp [classify, h1, h2]

/-- C10: a zero-byte file is fingerprintable (the hash of empty content
succeeds and equals that of any other empty file), so an empty source
file matching an indexed empty target file is a content duplicate: when
it is not strictly older it is proposed for deletion, and a file whose
fingerprint is in the index is never classified MOVE_UNIQUE. -/
theorem C10_zero_byte_files :
    (∀ mt perms, calculate_hash ⟨some [], mt, perms⟩ = some []) ∧
    (∀ fd fd' : FileData, fd.content = some [] → fd'.content = some [] →
        calculate_hash fd = calculate_hash fd') ∧
    (∀ (target : Tree) (idx : Index) (p existing : FilePath') (mt perms : Nat)
        (efd : FileData),
        idxLookup idx [] = some existing →
        treeLookup target existing = some efd →
        ¬ (mt < efd.mtime) →
        classify target idx p ⟨some [], mt, perms⟩ =
          Action.DELETE_NEWER_DUPLICATE_CONTENT) ∧
    (∀ (target : Tree) (idx : Index) (p : FilePath') (fd : FileData) (h : List Nat),
        calculate_hash fd = some h → (idxLookup idx h).isSome →
        ∀ h' dest, classify target idx p fd ≠ Action.MOVE_UNIQUE h' dest) := by
  refine ⟨fun mt perms => rfl, ?_, ?_, ?_⟩
  · intro fd fd' h h'
    unfold calculate_hash
    rw [h, h']
  · intro target idx p existing mt perms efd h1 h2 h3
    simp [classify, calculate_hash, h1, h2, h3]
  · intro target idx p fd h h1 h2 h' dest
    obtain ⟨existing, hex⟩ := Option.isSome_iff_exists.mp h2
    rw [classify_of_indexed target idx p fd h existing h1 hex]
    cases htl : treeLookup target existing with
    | none => simp [htl]
    | some efd =>
      by_cases hm : fd.mtime < efd.mtime <;> simp [htl, hm]

/-- Witness for C10: concrete zero-byte source (mtime 5) against an
indexed zero-byte target file (mtime 3): deletion, not MOVE_UNIQUE. -/
theorem C10_zero_byte_files_witness :
    (idxLookup [([], ["z"])] [] = some ["z"] ∧
     treeLookup [(["z"], FileData.mk (some []) 3 420)] ["z"] =
       some ⟨some [], 3, 420⟩ ∧
     ¬ ((5 : Nat) < 3) ∧
     classify [(["z"], ⟨some [], 3, 420⟩)] [([], ["z"])] ["w"] ⟨some [], 5, 420⟩ =
       Action.DELETE_NEWER_DUPLICATE_CONTENT) ∧
    classify [(["z"], ⟨some [], 3, 420⟩)] [([], ["z"])] ["w"] ⟨some [], 5, 420⟩ ≠
      Action.MOVE_UNIQUE [] ["w"] :=
  ⟨⟨by decide, by decide, by decide,
    C10_zero_byte_files.2.2.1 [(["z"], ⟨some [], 3, 420⟩)] [([], ["z"])] ["w"] ["z"]
      5 420 ⟨some [], 3, 420⟩ (by decide) (by decide) (by decide)⟩,
   C10_zero_byte_files.2.2.2 [(["z"], ⟨some [], 3, 420⟩)] [([], ["z"])] ["w"]
     ⟨some [], 5, 420⟩ [] (by decide) (by decide) [] ["w"]⟩

end Organizer
